import Mathlib

/-!
Shallow embedding of the directed experiment-group balancer of the
`petri-dish` repository (`petri_dish/distributors.py` and
`petri_dish/stat_tools.py`), together with theorems settling the frozen
claims about it.

Modelling conventions:
* a pandas `DataFrame` of subjects is a `List Row`, a `Row` being a total
  function from column name to cell value (`Option Int`, `none` = missing);
* the balance `Series` returned by `get_current_assignment_balance` is a
  `List BalEntry` in index order, one entry per `(block, treatment)` key of
  the `MultiIndex.from_product` cross product;
* the randomness of `.sample(frac=1).argmin()` (a uniformly random tie-break
  among the treatment ids of minimal count, since `argmin`/`idxmin` returns
  the label of the first minimum of the shuffled slice) is an explicit seed
  parameter: `chooseTie cnts seed` picks the `seed % #ties`-th tied pair;
* the p-values produced by `scipy` via `stat_tools.chi_squared` and
  `stat_tools.ttest` are opaque to the repository's own code, so they are
  supplied by a `StatModel` of functions from the argument columns to `ℚ`;
* Python exceptions escaping `assign_group` are an `Except RunError` result.
-/

namespace PetriDish

/-- A cell value: `none` models a pandas null/NaN. -/
abbrev Value := Option Int

/-- A subject record: total map from column name to cell value. -/
abbrev Row := String → Value

/-- Constructor arguments of `DirectedDistributor`, plus the
`random_attempts` attribute (class default 1000, mutable through
`set_random_attempts`). -/
structure DistConfig where
  treatment_group_ids : List Int
  treatment_assignment_col : String
  balancing_features : List String
  discrete_features : List String
  continuous_features : List String
  random_attempts : Nat

/-- One `(block, treatment) ↦ count` cell of the balance series. -/
structure BalEntry where
  block : List Value
  treatment : Int
  count : Nat
deriving DecidableEq, Repr

/-- The balance series returned by `get_current_assignment_balance`:
its entries in index order. -/
abbrev BalanceTable := List BalEntry

/-- Worker for `uniqueFirst`, carrying the set of values already seen. -/
def uniqueFirstAux : List Value → List Value → List Value
  | [], _ => []
  | v :: rest, seen =>
    if v ∈ seen then uniqueFirstAux rest seen
    else v :: uniqueFirstAux rest (v :: seen)

/-- `Series.unique`: the distinct values of a column in first-occurrence
order. -/
def uniqueFirst (l : List Value) : List Value :=
  uniqueFirstAux l []

/-- `MultiIndex.from_product` over the leading (balancing-feature) levels:
all combinations, first level varying slowest. -/
def listProd : List (List Value) → List (List Value)
  | [] => [[]]
  | vs :: rest => vs.flatMap (fun v => (listProd rest).map (v :: ·))

/-- The column `df[c]` as a list of cell values in row order. -/
def column (df : List Row) (c : String) : List Value :=
  df.map (fun r => r c)

/-- The joint `(block, treatment)` key space of the balance series: the
cross product of the observed unique values of every balancing feature with
the configured treatment-group ids (`distributors.py:98-101`). -/
def jointKeys (cfg : DistConfig) (df : List Row) : List (List Value × Int) :=
  (listProd (cfg.balancing_features.map (fun c => uniqueFirst (column df c)))).flatMap
    (fun bk => cfg.treatment_group_ids.map (fun t => (bk, t)))

/-- `tuple(subject.loc[balancing_features])`: the block key of a row. -/
def rowBlock (cfg : DistConfig) (r : Row) : List Value :=
  cfg.balancing_features.map r

/-- Does row `r` fall in block `bk` with assignment value `t`?  (A row with
a null assignment matches no treatment id, exactly as `value_counts` never
counts NaN.) -/
def matchesCell (cfg : DistConfig) (bk : List Value) (t : Int) (r : Row) : Bool :=
  (rowBlock cfg r == bk) && (r cfg.treatment_assignment_col == some t)

/-- `DirectedDistributor.get_current_assignment_balance`
(`distributors.py:95-116`): count, for every key of the cross-product
index, the rows of that block carrying that assignment value; rows with a
null assignment are dropped up front unless `count_nulls` (and are in any
case never counted under a treatment id, since their value is not one).
Missing combinations get count 0 via the `reindex(..).fillna(0)`.
One convention: a missing balancing value is an ordinary key value here,
whereas pandas' `groupby` silently drops rows with a NaN group key; the
theorems about counts therefore assume subjects with no missing balancing
values, where the two agree. -/
def get_current_assignment_balance (cfg : DistConfig) (df : List Row)
    (count_nulls : Bool) : BalanceTable :=
  let df2 := if count_nulls then df
             else df.filter (fun r => (r cfg.treatment_assignment_col).isSome)
  (jointKeys cfg df).map (fun kt => ⟨kt.1, kt.2, df2.countP (matchesCell cfg kt.1 kt.2)⟩)

/-- `balance.loc[block_index]`: the `(treatment, count)` pairs of one block,
in index order. -/
def lookupBlock (bal : BalanceTable) (bk : List Value) : List (Int × Nat) :=
  (bal.filter (fun e => e.block == bk)).map (fun e => (e.treatment, e.count))

/-- `balance.loc[block_index + (assignment,)] += 1`. -/
def increment (bal : BalanceTable) (bk : List Value) (t : Int) : BalanceTable :=
  bal.map (fun e =>
    if e.block == bk && e.treatment == t then { e with count := e.count + 1 } else e)

/-- The minimal count appearing in a block slice (0 on the empty slice,
which the source never reaches: it raises instead). -/
def minCount : List (Int × Nat) → Nat
  | [] => 0
  | p :: rest => rest.foldl (fun m q => min m q.2) p.2

/-- The pairs of a block slice tied for the minimal count. -/
def minTies (cnts : List (Int × Nat)) : List (Int × Nat) :=
  cnts.filter (fun p => p.2 == minCount cnts)

/-- `.sample(frac=1).argmin()` on a block slice: a uniformly random
tie-break over the minimum.  `argmin` (alias of `idxmin`) returns the index
label of the first minimal element of the shuffled slice, so over a uniform
shuffle each tied label is equally likely; the shuffle is replaced by the
explicit seed, `seed % #ties` selecting the tied pair. -/
def chooseTie (cnts : List (Int × Nat)) (seed : Nat) : Int :=
  let ties := minTies cnts
  (ties.getD (seed % ties.length) (0, 0)).1

/-- A Python exception escaping the distributor. -/
inductive RunError where
  /-- pandas lookup failure: `.loc[block_index]` finds no key, as happens
  when the joint index is empty (empty treatment-id list). -/
  | keyError : RunError
  /-- `UnboundLocalError` at `return selected_assignments` when no trial
  ever satisfied `min_p_value > max_min_p` (`distributors.py:93`). -/
  | unboundLocal : RunError
deriving DecidableEq, Repr

/-- `candidate_subjects_assignments.loc[ind, treatment_assignment_col] = assignment`:
the row with its assignment cell overwritten. -/
def setAssignment (cfg : DistConfig) (r : Row) (t : Int) : Row :=
  fun c => if c = cfg.treatment_assignment_col then some t else r c

/-- The row loop of `generate_candidate_assignments`
(`distributors.py:127-140`): rows are visited in original order; a row with
a non-null assignment is left untouched; a null row is assigned the random
argmin treatment of its block and the balance cell is incremented before
the next row is processed.  `k` numbers the assignment draws, feeding the
seed oracle. -/
def genRows (cfg : DistConfig) (oracle : Nat → Nat) :
    List Row → Nat → BalanceTable → Except RunError (List Row × BalanceTable)
  | [], _, bal => .ok ([], bal)
  | r :: rest, k, bal =>
    if (r cfg.treatment_assignment_col).isSome then
      match genRows cfg oracle rest k bal with
      | .error e => .error e
      | .ok (rs, b) => .ok (r :: rs, b)
    else
      let bk := rowBlock cfg r
      let cnts := lookupBlock bal bk
      if cnts.isEmpty then .error .keyError
      else
        let t := chooseTie cnts (oracle k)
        match genRows cfg oracle rest (k + 1) (increment bal bk t) with
        | .error e => .error e
        | .ok (rs, b) => .ok (setAssignment cfg r t :: rs, b)

/-- `DirectedDistributor.generate_candidate_assignments`
(`distributors.py:118-142`): copies of the inputs with every null
assignment filled in and the balance updated along the way. -/
def generate_candidate_assignments (cfg : DistConfig) (oracle : Nat → Nat)
    (df : List Row) (bal : BalanceTable) : Except RunError (List Row × BalanceTable) :=
  genRows cfg oracle df 0 bal

/-- The p-value functions of `stat_tools.chi_squared` / `stat_tools.ttest`,
opaque to the repository's code: each maps the concrete argument columns to
the p-value `scipy` would return. -/
structure StatModel where
  chi2_p : List Value → List Value → ℚ
  ttest_p : List Value → List Value → ℚ

/-- Number of non-missing entries of a column: `series.notnull().sum()`. -/
def notnullCount (vs : List Value) : Nat :=
  vs.countP (fun v => v.isSome)

/-- Second conjunct of the guard at `distributors.py:178`: the source
compares the bound method object `treatment2_slice[col].notnull().sum`
(unparenthesised, never called) against `1`; under the Python 2 ordering of
mixed types, under which the repository's tests pass, a method compares
greater than any integer, so the conjunct is identically true (under
Python 3 the same comparison raises `TypeError`). -/
def sum_method_gt_one : Bool := true

/-- The unordered pairs of treatment ids in loop order: outer index `t_ind1`
ascending, inner index `t_ind2 > t_ind1` ascending (`distributors.py:165-175`). -/
def pairsOf : List Int → List (Int × Int)
  | [] => []
  | t :: rest => rest.map (fun u => (t, u)) ++ pairsOf rest

/-- `candidate[candidate[treatment_assignment_col] == t]`: the rows of one
treatment group (a NaN assignment compares unequal to every id). -/
def slice (cfg : DistConfig) (df : List Row) (t : Int) : List Row :=
  df.filter (fun r => r cfg.treatment_assignment_col == some t)

/-- The chi-squared p-values taken in the first loop of
`calculate_min_p_value_distribution_independence` (`distributors.py:157-162`),
one per balancing then discrete feature, in order. -/
def chiTestPs (cfg : DistConfig) (sm : StatModel) (df : List Row) : List ℚ :=
  (cfg.balancing_features ++ cfg.discrete_features).map
    (fun cat => sm.chi2_p (column df cat) (column df cfg.treatment_assignment_col))

/-- The t-test p-values taken in the pair loop of
`calculate_min_p_value_distribution_independence` (`distributors.py:165-180`),
in loop order, one per treatment pair and continuous feature for which the
guard at line 178 holds. -/
def ttestPs (cfg : DistConfig) (sm : StatModel) (df : List Row) : List ℚ :=
  (pairsOf cfg.treatment_group_ids).flatMap (fun pr =>
    let s1 := slice cfg df pr.1
    let s2 := slice cfg df pr.2
    cfg.continuous_features.filterMap (fun col =>
      if decide (notnullCount (column s1 col) > 1) && sum_method_gt_one then
        some (sm.ttest_p (column s1 col) (column s2 col))
      else none))

/-- `DirectedDistributor.calculate_min_p_value_distribution_independence`
(`distributors.py:144-182`): `min_p` starts at 1 and takes the running
minimum with every test p-value in loop order. -/
def calculate_min_p_value_distribution_independence (cfg : DistConfig)
    (sm : StatModel) (df : List Row) : ℚ :=
  (chiTestPs cfg sm df ++ ttestPs cfg sm df).foldl min 1

/-- The trial loop of `assign_group` (`distributors.py:75-93`): `sel` is
`selected_assignments` (unbound at entry), `best` is `max_min_p`; each trial
re-generates from the same initial balance and replaces the retained
candidate only on a strictly larger score. -/
def trialsLoop (cfg : DistConfig) (sm : StatModel) (oracles : Nat → Nat → Nat)
    (df : List Row) (bal : BalanceTable) :
    List Nat → Option (List Row) → ℚ → Except RunError (List Row × ℚ)
  | [], none, _ => .error .unboundLocal
  | [], some sel, best => .ok (sel, best)
  | i :: rest, sel, best =>
    match generate_candidate_assignments cfg (oracles i) df bal with
    | .error e => .error e
    | .ok cand =>
      let p := calculate_min_p_value_distribution_independence cfg sm cand.1
      if best < p then trialsLoop cfg sm oracles df bal rest (some cand.1) p
      else trialsLoop cfg sm oracles df bal rest sel best

/-- `DirectedDistributor.assign_group` (`distributors.py:68-93`): build the
initial balance from the already-assigned rows, run `random_attempts`
trials, return the retained candidate and its score. -/
def assign_group (cfg : DistConfig) (sm : StatModel) (oracles : Nat → Nat → Nat)
    (df : List Row) : Except RunError (List Row × ℚ) :=
  let bal := get_current_assignment_balance cfg df false
  trialsLoop cfg sm oracles df bal (List.range cfg.random_attempts) none 0

/-- Sum of the counts carried by the entries with the given key (the count
read off the balance series at `(bk, t)`; 0 when the key is absent). -/
def balCount (bal : BalanceTable) (bk : List Value) (t : Int) : Nat :=
  (bal.filterMap (fun e =>
    if e.block == bk && e.treatment == t then some e.count else none)).sum

/-- Number of entries carrying the given key. -/
def keyCount (bal : BalanceTable) (bk : List Value) (t : Int) : Nat :=
  bal.countP (fun e => e.block == bk && e.treatment == t)

/-- Constructor-only check that the call returned normally. -/
def isOkResult : Except RunError (List Row × ℚ) → Bool
  | .ok _ => true
  | .error _ => false

/-! ### The concrete 10-subject scenario

The subject table of `tests/test_distributors.py` (`DistributorTestCase.setUp`):
ids 1..10, balancing feature `market_id`, discrete feature
`has_server_skill` (booleans as 1/0), continuous feature
`num_app_accessed`, and pre-assignments id 1 ↦ -1, id 2 ↦ 0, id 5 ↦ 0,
id 7 ↦ 0, all other assignments null. -/

/-- A subject row of the concrete scenario. -/
def mkRow (i market skill napps : Int) (tg : Value) : Row := fun c =>
  if c = "id" then some i
  else if c = "market_id" then some market
  else if c = "has_server_skill" then some skill
  else if c = "num_app_accessed" then some napps
  else if c = "treatment_group" then tg
  else none

/-- The 10-subject table of the test fixture. -/
def df10 : List Row :=
  [ mkRow 1 1 1 9 (some (-1)), mkRow 2 1 1 1 (some 0), mkRow 3 2 0 3 none,
    mkRow 4 3 1 2 none, mkRow 5 2 1 6 (some 0), mkRow 6 1 1 23 none,
    mkRow 7 3 0 0 (some 0), mkRow 8 2 0 3 none, mkRow 9 1 1 9 none,
    mkRow 10 2 0 2 none ]

/-- The distributor configuration of the test fixture (class default of
1000 random attempts). -/
def cfg10 : DistConfig :=
  ⟨[-1, 0], "treatment_group", ["market_id"], ["has_server_skill"],
    ["num_app_accessed"], 1000⟩

/-- The same configuration after `set_random_attempts(2)`, used where the
whole trial loop is evaluated on concrete data. -/
def cfg2 : DistConfig := { cfg10 with random_attempts := 2 }

/-- The initial balance of the scenario. -/
def bal10 : BalanceTable := get_current_assignment_balance cfg2 df10 false

/-- A seed oracle that always draws the first tied treatment. -/
def oracle0 : Nat → Nat := fun _ => 0

/-- Per-trial seed oracles, all drawing the first tied treatment. -/
def oracles0 : Nat → Nat → Nat := fun _ _ => 0

/-- A statistics model whose tests all return p-value 1. -/
def sm1 : StatModel := ⟨fun _ _ => 1, fun _ _ => 1⟩

/-- The candidate table and updated balance of one scenario trial. -/
def genOut10 : List Row × BalanceTable :=
  match generate_candidate_assignments cfg2 oracle0 df10 bal10 with
  | .ok out => out
  | .error _ => ([], [])

/-- The keys of the balance entries, in order. -/
def keysOf (bal : BalanceTable) : List (List Value × Int) :=
  bal.map (fun e => (e.block, e.treatment))

/-- Within every block, no two treatment counts differ by more than one. -/
def spreadWithin (bal : BalanceTable) : Prop :=
  ∀ e1 ∈ bal, ∀ e2 ∈ bal, e1.block = e2.block → e1.count ≤ e2.count + 1

instance spreadWithin_dec (bal : BalanceTable) : Decidable (spreadWithin bal) :=
  inferInstanceAs (Decidable (∀ e1 ∈ bal, ∀ e2 ∈ bal,
    e1.block = e2.block → e1.count ≤ e2.count + 1))

/-- The step relation traced by the row loop of
`generate_candidate_assignments`: rows are processed in order; a row with a
non-null assignment passes through unchanged; a row with a null assignment
receives a treatment id whose count is minimal among the pairs of its block
slice of the current balance, and that cell is incremented before the
remaining rows are processed. -/
inductive AssignSteps (cfg : DistConfig) :
    List Row → BalanceTable → List Row → BalanceTable → Prop
  | nil (bal : BalanceTable) : AssignSteps cfg [] bal [] bal
  | keep (r : Row) (rest : List Row) (bal : BalanceTable) (rest' : List Row)
      (bal' : BalanceTable) :
      (r cfg.treatment_assignment_col).isSome →
      AssignSteps cfg rest bal rest' bal' →
      AssignSteps cfg (r :: rest) bal (r :: rest') bal'
  | assign (r : Row) (rest : List Row) (bal : BalanceTable) (rest' : List Row)
      (bal' : BalanceTable) (t : Int) (c : Nat) :
      r cfg.treatment_assignment_col = none →
      (t, c) ∈ lookupBlock bal (rowBlock cfg r) →
      (∀ q ∈ lookupBlock bal (rowBlock cfg r), c ≤ q.2) →
      AssignSteps cfg rest (increment bal (rowBlock cfg r) t) rest' bal' →
      AssignSteps cfg (r :: rest) bal (setAssignment cfg r t :: rest') bal'

/-- Rows of `df` sitting in block `bk` with assignment value `t`. -/
def countAssigned (cfg : DistConfig) (df : List Row) (bk : List Value) (t : Int) : Nat :=
  df.countP (matchesCell cfg bk t)

/-- The all-null default row used to state positionwise properties. -/
def dRow : Row := fun _ => none

/-- The balance the code actually computes on the 10-subject fixture: note
`([some 3], 0) ↦ 1` (subject 7 sits in market 3 with assignment 0). -/
def expectedBal10 : BalanceTable :=
  [⟨[some 1], -1, 1⟩, ⟨[some 1], 0, 1⟩, ⟨[some 2], -1, 0⟩,
   ⟨[some 2], 0, 1⟩, ⟨[some 3], -1, 0⟩, ⟨[some 3], 0, 1⟩]

/-- Two fully pre-assigned subjects. -/
def dfE : List Row := [mkRow 1 1 1 9 (some 0), mkRow 2 2 1 1 (some 0)]

/-- A configuration with an *empty* treatment-group id list and one trial. -/
def cfgE : DistConfig := ⟨[], "treatment_group", ["market_id"], [], [], 1⟩

/-- The configuration after `set_random_attempts(0)`. -/
def cfg0 : DistConfig := { cfg10 with random_attempts := 0 }

/-- A row whose continuous feature `num_app_accessed` is missing. -/
def rowMissing : Row := fun c =>
  if c = "id" then some 3
  else if c = "market_id" then some 1
  else if c = "treatment_group" then some 0
  else none

/-- Three subjects: two in group `-1` with a present continuous value, one
in group `0` whose continuous value is missing. -/
def df5 : List Row :=
  [mkRow 1 1 1 9 (some (-1)), mkRow 2 1 1 1 (some (-1)), rowMissing]

/-- Configuration for the skipped-t-test scenario: one balancing feature,
no discrete features, one continuous feature. -/
def cfg5 : DistConfig :=
  ⟨[-1, 0], "treatment_group", ["market_id"], [], ["num_app_accessed"], 1⟩

/-- The per-trial candidate of the scenario: every trial draws the first
tied treatment, so all trials coincide. -/
def cand10 : Nat → List Row × BalanceTable := fun _ => genOut10

/-! ### Generic helpers about running minima -/

theorem foldl_min_le_init {α : Type} [LinearOrder α] (xs : List α) (a : α) :
    xs.foldl min a ≤ a := by
  induction xs generalizing a with
  | nil => simp
  | cons x xs ih =>
    simpa using le_trans (ih (min a x)) (min_le_left a x)

theorem foldl_min_le_mem {α : Type} [LinearOrder α] {xs : List α} {x : α}
    (hx : x ∈ xs) (a : α) : xs.foldl min a ≤ x := by
  induction xs generalizing a with
  | nil => cases hx
  | cons y ys ih =>
    rcases List.mem_cons.1 hx with rfl | hx'
    · simpa using le_trans (foldl_min_le_init ys (min a x)) (min_le_right a x)
    · simpa using ih hx' (min a y)

theorem foldl_min_eq_init_or_mem {α : Type} [LinearOrder α] (xs : List α) (a : α) :
    xs.foldl min a = a ∨ xs.foldl min a ∈ xs := by
  induction xs generalizing a with
  | nil => exact .inl rfl
  | cons x xs ih =>
    rw [List.foldl_cons]
    rcases ih (min a x) with h | h
    · rcases min_choice a x with hm | hm
      · exact .inl (by rw [h, hm])
      · exact .inr (List.mem_cons.2 (.inl (by rw [h, hm])))
    · exact .inr (List.mem_cons_of_mem x h)

theorem le_foldl_min {α : Type} [LinearOrder α] {xs : List α} {a b : α}
    (ha : b ≤ a) (hxs : ∀ x ∈ xs, b ≤ x) : b ≤ xs.foldl min a := by
  induction xs generalizing a with
  | nil => exact ha
  | cons x xs ih =>
    exact ih (le_min ha (hxs x (List.mem_cons_self x xs)))
      (fun y hy => hxs y (List.mem_cons_of_mem x hy))

/-! ### Helpers about `minCount`, `minTies` and `chooseTie` -/

theorem minCount_eq_foldl (q : Int × Nat) (rest : List (Int × Nat)) :
    minCount (q :: rest) = (rest.map Prod.snd).foldl min q.2 := by
  simp [minCount, List.foldl_map]

theorem minCount_le {cnts : List (Int × Nat)} {p : Int × Nat} (hp : p ∈ cnts) :
    minCount cnts ≤ p.2 := by
  cases cnts with
  | nil => cases hp
  | cons q rest =>
    rw [minCount_eq_foldl]
    rcases List.mem_cons.1 hp with rfl | hp'
    · exact foldl_min_le_init _ _
    · exact foldl_min_le_mem (List.mem_map_of_mem Prod.snd hp') q.2

theorem minCount_is_attained {cnts : List (Int × Nat)} (h : cnts ≠ []) :
    ∃ p ∈ cnts, p.2 = minCount cnts := by
  cases cnts with
  | nil => exact absurd rfl h
  | cons q rest =>
    rw [minCount_eq_foldl]
    rcases foldl_min_eq_init_or_mem (rest.map Prod.snd) q.2 with hm | hm
    · exact ⟨q, List.mem_cons_self q rest, hm.symm⟩
    · rcases List.mem_map.1 hm with ⟨p, hp, hp2⟩
      exact ⟨p, List.mem_cons_of_mem q hp, hp2⟩

theorem minTies_ne_nil {cnts : List (Int × Nat)} (h : cnts ≠ []) :
    minTies cnts ≠ [] := by
  rcases minCount_is_attained h with ⟨p, hp, hp2⟩
  have : p ∈ minTies cnts := List.mem_filter.2 ⟨hp, by simpa using hp2⟩
  intro hnil
  rw [hnil] at this
  cases this

theorem chooseTie_spec {cnts : List (Int × Nat)} (h : cnts ≠ []) (seed : Nat) :
    ∃ c, (chooseTie cnts seed, c) ∈ cnts ∧ c = minCount cnts := by
  have hne : minTies cnts ≠ [] := minTies_ne_nil h
  have hlen : 0 < (minTies cnts).length := List.length_pos.2 hne
  have hlt : seed % (minTies cnts).length < (minTies cnts).length :=
    Nat.mod_lt _ hlen
  have hmem : (minTies cnts).getD (seed % (minTies cnts).length) (0, 0) ∈ minTies cnts := by
    rw [List.getD_eq_getElem _ _ hlt]
    exact List.getElem_mem hlt
  have := List.mem_filter.1 hmem
  refine ⟨((minTies cnts).getD (seed % (minTies cnts).length) (0, 0)).2, ?_, ?_⟩
  · simpa [chooseTie] using this.1
  · simpa using this.2

/-- Composing the chooser with the seeds `0, 1, ..., #ties - 1` enumerates
exactly the tied treatment ids, in order: over a uniformly random seed
residue the tie-break is uniform over the tied ids. -/
theorem chooseTie_uniform (cnts : List (Int × Nat)) :
    (List.range (minTies cnts).length).map (chooseTie cnts) =
      (minTies cnts).map Prod.fst := by
  have hmod : ∀ k ∈ List.range (minTies cnts).length,
      chooseTie cnts k = ((minTies cnts).getD k (0, 0)).1 := by
    intro k hk
    have hk' : k < (minTies cnts).length := List.mem_range.1 hk
    simp [chooseTie, Nat.mod_eq_of_lt hk']
  rw [List.map_congr_left hmod]
  generalize (minTies cnts) = l
  induction l with
  | nil => simp
  | cons x xs ih =>
    rw [List.length_cons, List.range_succ_eq_map]
    simp only [List.map_cons, List.map_map, List.getD_cons_zero]
    refine congrArg (x.1 :: ·) ?_
    rw [show ((fun k => ((x :: xs).getD k (0, 0)).1) ∘ Nat.succ)
          = (fun k => (xs.getD k (0, 0)).1) from rfl]
    exact ih

/-! ### Helpers about `lookupBlock`, `increment` and entry counting -/

theorem lookupBlock_nil (bk : List Value) : lookupBlock [] bk = [] := rfl

theorem lookupBlock_cons (e : BalEntry) (bal : BalanceTable) (bk : List Value) :
    lookupBlock (e :: bal) bk =
      if e.block = bk then (e.treatment, e.count) :: lookupBlock bal bk
      else lookupBlock bal bk := by
  by_cases h : e.block = bk <;> simp [lookupBlock, List.filter_cons, h]

theorem mem_lookup_of_mem {bal : BalanceTable} {e : BalEntry} (he : e ∈ bal) :
    (e.treatment, e.count) ∈ lookupBlock bal e.block := by
  induction bal with
  | nil => cases he
  | cons f bal ih =>
    rw [lookupBlock_cons]
    rcases List.mem_cons.1 he with rfl | he'
    · simp
    · split
      · exact List.mem_cons_of_mem _ (ih he')
      · exact ih he'

theorem entry_of_mem_lookup {bal : BalanceTable} {bk : List Value} {t : Int} {c : Nat}
    (h : (t, c) ∈ lookupBlock bal bk) : (⟨bk, t, c⟩ : BalEntry) ∈ bal := by
  induction bal with
  | nil => cases h
  | cons f bal ih =>
    rw [lookupBlock_cons] at h
    split at h
    · rcases List.mem_cons.1 h with hh | h'
      · obtain ⟨rfl, rfl⟩ := Prod.mk.injEq .. ▸ Prod.mk.inj hh
        exact List.mem_cons.2 (.inl (by cases f; simp_all))
      · exact List.mem_cons_of_mem _ (ih h')
    · exact List.mem_cons_of_mem _ (ih h)

theorem keysOf_mem_of_mem {bal : BalanceTable} {e : BalEntry} (he : e ∈ bal) :
    (e.block, e.treatment) ∈ keysOf bal :=
  List.mem_map_of_mem _ he

theorem lookup_count_unique {bal : BalanceTable} (hnd : (keysOf bal).Nodup)
    {bk : List Value} {t : Int} {c c' : Nat}
    (h1 : (t, c) ∈ lookupBlock bal bk) (h2 : (t, c') ∈ lookupBlock bal bk) :
    c = c' := by
  induction bal with
  | nil => cases h1
  | cons e bal ih =>
    have hnd' : (keysOf bal).Nodup := (List.nodup_cons.1 hnd).2
    have hkey : (e.block, e.treatment) ∉ keysOf bal := (List.nodup_cons.1 hnd).1
    rw [lookupBlock_cons] at h1 h2
    split at h1
    · next hbk =>
      rw [if_pos hbk] at h2
      rcases List.mem_cons.1 h1 with hh1 | h1' <;> rcases List.mem_cons.1 h2 with hh2 | h2'
      · exact (Prod.mk.inj hh1).2.trans (Prod.mk.inj hh2).2.symm
      · obtain ⟨ht, hc⟩ := Prod.mk.inj hh1
        exact absurd (hbk ▸ ht ▸ keysOf_mem_of_mem (entry_of_mem_lookup h2'))
          (by simpa using hkey)
      · obtain ⟨ht, hc⟩ := Prod.mk.inj hh2
        exact absurd (hbk ▸ ht ▸ keysOf_mem_of_mem (entry_of_mem_lookup h1'))
          (by simpa using hkey)
      · exact ih hnd' h1' h2'
    · next hbk =>
      rw [if_neg hbk] at h2
      exact ih hnd' h1 h2

theorem increment_cons (e : BalEntry) (bal : BalanceTable) (bk : List Value) (t : Int) :
    increment (e :: bal) bk t =
      (if e.block = bk ∧ e.treatment = t then { e with count := e.count + 1 } else e)
        :: increment bal bk t := by
  by_cases h1 : e.block = bk <;> by_cases h2 : e.treatment = t <;>
    simp [increment, h1, h2]

theorem keysOf_increment (bal : BalanceTable) (bk : List Value) (t : Int) :
    keysOf (increment bal bk t) = keysOf bal := by
  simp only [keysOf, increment, List.map_map]
  apply List.map_congr_left
  intro e _
  simp only [Function.comp_apply]
  split <;> rfl

theorem keyCount_nil (bk : List Value) (t : Int) : keyCount [] bk t = 0 := rfl

theorem keyCount_cons (e : BalEntry) (bal : BalanceTable) (bk : List Value) (t : Int) :
    keyCount (e :: bal) bk t =
      (if e.block = bk ∧ e.treatment = t then 1 else 0) + keyCount bal bk t := by
  by_cases h1 : e.block = bk <;> by_cases h2 : e.treatment = t <;>
    simp [keyCount, List.countP_cons, h1, h2, Nat.add_comm]

theorem balCount_nil (bk : List Value) (t : Int) : balCount [] bk t = 0 := rfl

theorem balCount_cons (e : BalEntry) (bal : BalanceTable) (bk : List Value) (t : Int) :
    balCount (e :: bal) bk t =
      (if e.block = bk ∧ e.treatment = t then e.count else 0) + balCount bal bk t := by
  by_cases h1 : e.block = bk <;> by_cases h2 : e.treatment = t <;>
    simp [balCount, List.filterMap_cons, h1, h2]

theorem balCount_increment (bal : BalanceTable) (bk : List Value) (t : Int)
    (bk' : List Value) (t' : Int) :
    balCount (increment bal bk t) bk' t' =
      balCount bal bk' t' +
        (if bk' = bk ∧ t' = t then keyCount bal bk' t' else 0) := by
  induction bal with
  | nil => simp [increment, balCount_nil, keyCount_nil]
  | cons e bal ih =>
    rw [increment_cons]
    by_cases he : e.block = bk ∧ e.treatment = t
    · rw [if_pos he, balCount_cons, balCount_cons, keyCount_cons, ih]
      by_cases hm : e.block = bk' ∧ e.treatment = t'
      · have hkk : bk' = bk ∧ t' = t :=
          ⟨hm.1.symm.trans he.1, hm.2.symm.trans he.2⟩
        simp only [show ({ e with count := e.count + 1 } : BalEntry).block = e.block from rfl,
          show ({ e with count := e.count + 1 } : BalEntry).treatment = e.treatment from rfl,
          show ({ e with count := e.count + 1 } : BalEntry).count = e.count + 1 from rfl,
          if_pos hm, if_pos hkk, if_pos he]
        omega
      · simp only [show ({ e with count := e.count + 1 } : BalEntry).block = e.block from rfl,
          show ({ e with count := e.count + 1 } : BalEntry).treatment = e.treatment from rfl,
          if_neg hm, if_pos he]
        by_cases hkk : bk' = bk ∧ t' = t <;> simp [hkk]
    · rw [if_neg he, balCount_cons, balCount_cons, keyCount_cons, ih]
      by_cases hkk : bk' = bk ∧ t' = t
      · by_cases hm : e.block = bk' ∧ e.treatment = t'
        · exact absurd ⟨hm.1.trans hkk.1, hm.2.trans hkk.2⟩ he
        · simp [hm, hkk, he]
      · by_cases hm : e.block = bk' ∧ e.treatment = t' <;> simp [hm, hkk]

theorem keyCount_pos_of_mem {bal : BalanceTable} {e : BalEntry} (he : e ∈ bal) :
    1 ≤ keyCount bal e.block e.treatment := by
  induction bal with
  | nil => cases he
  | cons f bal ih =>
    rw [keyCount_cons]
    rcases List.mem_cons.1 he with rfl | he'
    · simp
    · exact le_trans (ih he') (by omega)

theorem keyCount_le_one_of_nodup {bal : BalanceTable} (hnd : (keysOf bal).Nodup)
    (bk : List Value) (t : Int) : keyCount bal bk t ≤ 1 := by
  induction bal with
  | nil => simp [keyCount_nil]
  | cons e bal ih =>
    have hnd' : (keysOf bal).Nodup := (List.nodup_cons.1 hnd).2
    have hkey : (e.block, e.treatment) ∉ keysOf bal := (List.nodup_cons.1 hnd).1
    rw [keyCount_cons]
    by_cases he : e.block = bk ∧ e.treatment = t
    · obtain ⟨rfl, rfl⟩ := he
      have : keyCount bal e.block e.treatment = 0 := by
        by_contra hne
        have hpos : 0 < keyCount bal e.block e.treatment := Nat.pos_of_ne_zero hne
        rcases List.countP_pos_iff.mp hpos with ⟨f, hf, hpf⟩
        have : f.block = e.block ∧ f.treatment = e.treatment := by
          simpa using hpf
        exact hkey (this.1 ▸ this.2 ▸ keysOf_mem_of_mem hf)
      simp [this]
    · simpa [he] using ih hnd'

theorem balCount_eq_zero {bal : BalanceTable} {bk : List Value} {t : Int}
    (h : ∀ f ∈ bal, ¬(f.block = bk ∧ f.treatment = t)) : balCount bal bk t = 0 := by
  induction bal with
  | nil => rfl
  | cons g bal ih =>
    rw [balCount_cons]
    simp only [h g (List.mem_cons_self g bal), if_false, Nat.zero_add]
    exact ih (fun f hf => h f (List.mem_cons_of_mem g hf))

theorem entry_count_eq_balCount {bal : BalanceTable} (hnd : (keysOf bal).Nodup)
    {e : BalEntry} (he : e ∈ bal) : balCount bal e.block e.treatment = e.count := by
  induction bal with
  | nil => cases he
  | cons f bal ih =>
    have hnd' : (keysOf bal).Nodup := (List.nodup_cons.1 hnd).2
    have hkey : (f.block, f.treatment) ∉ keysOf bal := (List.nodup_cons.1 hnd).1
    rw [balCount_cons]
    rcases List.mem_cons.1 he with rfl | he'
    · have hz : balCount bal e.block e.treatment = 0 :=
        balCount_eq_zero (fun f' hf' hc =>
          hkey (hc.1 ▸ hc.2 ▸ keysOf_mem_of_mem hf'))
      simp [hz]
    · have hne : ¬(f.block = e.block ∧ f.treatment = e.treatment) := by
        rintro ⟨hb, ht⟩
        exact hkey (hb ▸ ht ▸ keysOf_mem_of_mem he')
      simpa [hne] using ih hnd' he'

/-! ### The row loop: inversion, progress, preserved structure -/

theorem mem_increment {bal : BalanceTable} {bk : List Value} {t : Int} {e' : BalEntry}
    (h : e' ∈ increment bal bk t) :
    ∃ e ∈ bal, (¬(e.block = bk ∧ e.treatment = t) ∧ e' = e) ∨
      ((e.block = bk ∧ e.treatment = t) ∧ e' = { e with count := e.count + 1 }) := by
  rcases List.mem_map.1 h with ⟨e, he, hfe⟩
  by_cases hc : e.block = bk ∧ e.treatment = t
  · refine ⟨e, he, .inr ⟨hc, ?_⟩⟩
    rw [← hfe]
    simp [hc.1, hc.2]
  · refine ⟨e, he, .inl ⟨hc, ?_⟩⟩
    rw [← hfe]
    have : (e.block == bk && e.treatment == t) = false := by
      rcases Decidable.not_and_iff_or_not.1 hc with hb | ht
      · simp [hb]
      · simp [ht]
    simp [this]

theorem lookupBlock_increment_length (bal : BalanceTable) (bk : List Value) (t : Int)
    (bk' : List Value) :
    (lookupBlock (increment bal bk t) bk').length = (lookupBlock bal bk').length := by
  induction bal with
  | nil => rfl
  | cons e bal ih =>
    rw [increment_cons]
    by_cases h : e.block = bk ∧ e.treatment = t
    · rw [if_pos h, lookupBlock_cons, lookupBlock_cons]
      by_cases hb : e.block = bk'
      · rw [if_pos (show ({ e with count := e.count + 1 } : BalEntry).block = bk' from hb),
          if_pos hb]
        simp [ih]
      · rw [if_neg (show ¬({ e with count := e.count + 1 } : BalEntry).block = bk' from hb),
          if_neg hb]
        exact ih
    · rw [if_neg h, lookupBlock_cons, lookupBlock_cons]
      by_cases hb : e.block = bk'
      · rw [if_pos hb, if_pos hb]
        simp [ih]
      · rw [if_neg hb, if_neg hb]
        exact ih

theorem rowBlock_setAssignment {cfg : DistConfig}
    (hacol : cfg.treatment_assignment_col ∉ cfg.balancing_features) (r : Row) (t : Int) :
    rowBlock cfg (setAssignment cfg r t) = rowBlock cfg r := by
  apply List.map_congr_left
  intro c hc
  have : c ≠ cfg.treatment_assignment_col := fun hcc => hacol (hcc ▸ hc)
  simp [setAssignment, this]

theorem genRows_ok_steps {cfg : DistConfig} {oracle : Nat → Nat} {df : List Row}
    {k : Nat} {bal : BalanceTable} {df' : List Row} {bal' : BalanceTable}
    (h : genRows cfg oracle df k bal = .ok (df', bal')) :
    AssignSteps cfg df bal df' bal' := by
  induction df generalizing k bal df' bal' with
  | nil =>
    simp only [genRows, Except.ok.injEq, Prod.mk.injEq] at h
    obtain ⟨rfl, rfl⟩ := h
    exact .nil bal
  | cons r rest ih =>
    by_cases hs : (r cfg.treatment_assignment_col).isSome = true
    · rw [genRows, if_pos hs] at h
      cases hrec : genRows cfg oracle rest k bal with
      | error e => rw [hrec] at h; cases h
      | ok pr =>
        obtain ⟨rs, b⟩ := pr
        rw [hrec] at h
        simp only [Except.ok.injEq, Prod.mk.injEq] at h
        obtain ⟨rfl, rfl⟩ := h
        exact .keep r rest bal rs b hs (ih hrec)
    · have hnone : r cfg.treatment_assignment_col = none :=
        Option.not_isSome_iff_eq_none.1 (by simpa using hs)
      rw [genRows, if_neg hs] at h
      by_cases hemp : (lookupBlock bal (rowBlock cfg r)).isEmpty = true
      · rw [if_pos hemp] at h
        cases h
      · rw [if_neg hemp] at h
        simp only [] at h
        have hne : lookupBlock bal (rowBlock cfg r) ≠ [] := by
          simpa [List.isEmpty_iff] using hemp
        set t := chooseTie (lookupBlock bal (rowBlock cfg r)) (oracle k) with ht
        cases hrec : genRows cfg oracle rest (k + 1) (increment bal (rowBlock cfg r) t) with
        | error e => rw [hrec] at h; cases h
        | ok pr =>
          obtain ⟨rs, b⟩ := pr
          rw [hrec] at h
          simp only [Except.ok.injEq, Prod.mk.injEq] at h
          obtain ⟨rfl, rfl⟩ := h
          rcases chooseTie_spec hne (oracle k) with ⟨c, hcm, hcmin⟩
          exact .assign r rest bal rs b t c hnone hcm
            (fun q hq => hcmin ▸ minCount_le hq) (ih hrec)

theorem genRows_progress (cfg : DistConfig) (oracle : Nat → Nat) (df : List Row) :
    ∀ (k : Nat) (bal : BalanceTable),
      (∀ r ∈ df, r cfg.treatment_assignment_col = none →
        lookupBlock bal (rowBlock cfg r) ≠ []) →
      ∃ out, genRows cfg oracle df k bal = .ok out := by
  induction df with
  | nil => exact fun k bal _ => ⟨([], bal), rfl⟩
  | cons r rest ih =>
    intro k bal h
    by_cases hs : (r cfg.treatment_assignment_col).isSome = true
    · obtain ⟨⟨rs, b⟩, hout⟩ := ih k bal
        (fun r' hr' => h r' (List.mem_cons_of_mem r hr'))
      exact ⟨(r :: rs, b), by rw [genRows, if_pos hs, hout]⟩
    · have hnone : r cfg.treatment_assignment_col = none :=
        Option.not_isSome_iff_eq_none.1 (by simpa using hs)
      have hne : lookupBlock bal (rowBlock cfg r) ≠ [] :=
        h r (List.mem_cons_self r rest) hnone
      have hemp : (lookupBlock bal (rowBlock cfg r)).isEmpty = false := by
        simpa [List.isEmpty_iff] using hne
      set t := chooseTie (lookupBlock bal (rowBlock cfg r)) (oracle k) with ht
      obtain ⟨⟨rs, b⟩, hout⟩ := ih (k + 1) (increment bal (rowBlock cfg r) t)
        (fun r' hr' hn => by
          have hlen := lookupBlock_increment_length bal (rowBlock cfg r) t (rowBlock cfg r')
          have := h r' (List.mem_cons_of_mem r hr') hn
          intro hnil
          rw [hnil] at hlen
          exact this (List.length_eq_zero.1 hlen.symm))
      refine ⟨(setAssignment cfg r t :: rs, b), ?_⟩
      rw [genRows, if_neg hs, if_neg (by simp [hemp])]
      simp only []
      rw [← ht, hout]

theorem matchesCell_of_none {cfg : DistConfig} {bk : List Value} {t : Int} {r : Row}
    (h : r cfg.treatment_assignment_col = none) : matchesCell cfg bk t r = false := by
  simp [matchesCell, h]

theorem matchesCell_setAssignment {cfg : DistConfig}
    (hacol : cfg.treatment_assignment_col ∉ cfg.balancing_features)
    (r : Row) (t0 : Int) (bk : List Value) (t : Int) :
    matchesCell cfg bk t (setAssignment cfg r t0) =
      ((rowBlock cfg r == bk) && (t0 == t)) := by
  rw [matchesCell, rowBlock_setAssignment hacol]
  simp [setAssignment]

theorem countAssigned_cons (cfg : DistConfig) (r : Row) (df : List Row)
    (bk : List Value) (t : Int) :
    countAssigned cfg (r :: df) bk t =
      (if matchesCell cfg bk t r then 1 else 0) + countAssigned cfg df bk t := by
  simp [countAssigned, List.countP_cons, Nat.add_comm]

theorem steps_length {cfg : DistConfig} {df : List Row} {bal : BalanceTable}
    {df' : List Row} {bal' : BalanceTable} (h : AssignSteps cfg df bal df' bal') :
    df'.length = df.length := by
  induction h with
  | nil => rfl
  | keep _ _ _ _ _ _ _ ih => simpa using ih
  | assign _ _ _ _ _ _ _ _ _ _ _ ih => simpa using ih

theorem steps_column {cfg : DistConfig} {df : List Row} {bal : BalanceTable}
    {df' : List Row} {bal' : BalanceTable} (h : AssignSteps cfg df bal df' bal')
    {c : String} (hc : c ≠ cfg.treatment_assignment_col) :
    column df' c = column df c := by
  induction h with
  | nil => rfl
  | keep r _ _ _ _ _ _ ih => simpa [column] using ih
  | assign r _ _ _ _ t _ _ _ _ _ ih =>
    have : setAssignment cfg r t c = r c := by simp [setAssignment, hc]
    simpa [column, this] using ih

theorem steps_assignment_kept {cfg : DistConfig} {df : List Row} {bal : BalanceTable}
    {df' : List Row} {bal' : BalanceTable} (h : AssignSteps cfg df bal df' bal')
    (n : Nat) (hn : (df.getD n dRow) cfg.treatment_assignment_col ≠ none) :
    (df'.getD n dRow) cfg.treatment_assignment_col =
      (df.getD n dRow) cfg.treatment_assignment_col := by
  induction h generalizing n with
  | nil => rfl
  | keep r rest bal rest' bal' _ _ ih =>
    cases n with
    | zero => rfl
    | succ m => exact ih m (by simpa using hn)
  | assign r rest bal rest' bal' t c hr _ _ _ ih =>
    cases n with
    | zero => exact absurd (by simpa using hr) (by simpa using hn)
    | succ m => exact ih m (by simpa using hn)

theorem steps_all_some {cfg : DistConfig} {df : List Row} {bal : BalanceTable}
    {df' : List Row} {bal' : BalanceTable} (h : AssignSteps cfg df bal df' bal') :
    ∀ r ∈ df', (r cfg.treatment_assignment_col).isSome = true := by
  induction h with
  | nil => intro r hr; cases hr
  | keep r rest bal rest' bal' hs _ ih =>
    intro r' hr'
    rcases List.mem_cons.1 hr' with rfl | hr''
    · exact hs
    · exact ih r' hr''
  | assign r rest bal rest' bal' t c _ _ _ _ ih =>
    intro r' hr'
    rcases List.mem_cons.1 hr' with rfl | hr''
    · simp [setAssignment]
    · exact ih r' hr''

theorem steps_keys {cfg : DistConfig} {df : List Row} {bal : BalanceTable}
    {df' : List Row} {bal' : BalanceTable} (h : AssignSteps cfg df bal df' bal') :
    keysOf bal' = keysOf bal := by
  induction h with
  | nil => rfl
  | keep _ _ _ _ _ _ _ ih => exact ih
  | assign r rest bal rest' bal' t c _ _ _ _ ih =>
    exact ih.trans (keysOf_increment bal (rowBlock cfg r) t)

theorem spread_increment {bal : BalanceTable} {bk : List Value} {t : Int} {c : Nat}
    (hnd : (keysOf bal).Nodup) (hmem : (t, c) ∈ lookupBlock bal bk)
    (hmin : ∀ q ∈ lookupBlock bal bk, c ≤ q.2) (hsp : spreadWithin bal) :
    spreadWithin (increment bal bk t) := by
  intro e1' h1' e2' h2' hblk
  rcases mem_increment h1' with ⟨e1, he1, hc1⟩
  rcases mem_increment h2' with ⟨e2, he2, hc2⟩
  have hb1 : e1'.block = e1.block := by rcases hc1 with ⟨_, h⟩ | ⟨_, h⟩ <;> rw [h]
  have hb2 : e2'.block = e2.block := by rcases hc2 with ⟨_, h⟩ | ⟨_, h⟩ <;> rw [h]
  have hblk12 : e1.block = e2.block := by rw [← hb1, ← hb2]; exact hblk
  have hsp12 : e1.count ≤ e2.count + 1 := hsp e1 he1 e2 he2 hblk12
  rcases hc1 with ⟨hne1, heq1⟩ | ⟨⟨hbk1, ht1⟩, heq1⟩
  · rcases hc2 with ⟨hne2, heq2⟩ | ⟨⟨hbk2, ht2⟩, heq2⟩
    · rw [heq1, heq2]; exact hsp12
    · rw [heq1, heq2]; show e1.count ≤ e2.count + 1 + 1; omega
  · rcases hc2 with ⟨hne2, heq2⟩ | ⟨⟨hbk2, ht2⟩, heq2⟩
    · have hl1 : (t, e1.count) ∈ lookupBlock bal bk := by
        have := mem_lookup_of_mem he1
        rw [hbk1, ht1] at this
        exact this
      have he1c : e1.count = c := lookup_count_unique hnd hl1 hmem
      have hb2bk : e2.block = bk := by rw [← hblk12]; exact hbk1
      have hl2 : (e2.treatment, e2.count) ∈ lookupBlock bal bk := by
        have := mem_lookup_of_mem he2
        rw [hb2bk] at this
        exact this
      have hce2 : c ≤ e2.count := hmin _ hl2
      rw [heq1, heq2]
      show e1.count + 1 ≤ e2.count + 1
      omega
    · rw [heq1, heq2]
      show e1.count + 1 ≤ e2.count + 1 + 1
      omega

theorem steps_spread {cfg : DistConfig} {df : List Row} {bal : BalanceTable}
    {df' : List Row} {bal' : BalanceTable} (h : AssignSteps cfg df bal df' bal')
    (hnd : (keysOf bal).Nodup) (hsp : spreadWithin bal) : spreadWithin bal' := by
  revert hnd hsp
  induction h with
  | nil => exact fun _ hsp => hsp
  | keep _ _ _ _ _ _ _ ih => exact ih
  | assign r rest bal rest' bal' t c _ hmem hmin _ ih =>
    intro hnd hsp
    exact ih ((keysOf_increment bal (rowBlock cfg r) t).symm ▸ hnd)
      (spread_increment hnd hmem hmin hsp)

theorem steps_balCount {cfg : DistConfig} {df : List Row} {bal : BalanceTable}
    {df' : List Row} {bal' : BalanceTable} (h : AssignSteps cfg df bal df' bal')
    (hacol : cfg.treatment_assignment_col ∉ cfg.balancing_features)
    (hnd : (keysOf bal).Nodup) (bk : List Value) (t : Int) :
    balCount bal' bk t + countAssigned cfg df bk t =
      balCount bal bk t + countAssigned cfg df' bk t := by
  revert hnd
  induction h with
  | nil => exact fun _ => rfl
  | keep r rest bal rest' bal' _ _ ih =>
    intro hnd
    rw [countAssigned_cons, countAssigned_cons]
    have := ih hnd
    omega
  | assign r rest bal rest' bal' t0 c hr hmem hmin _ ih =>
    intro hnd
    rw [countAssigned_cons, countAssigned_cons, matchesCell_of_none hr,
      matchesCell_setAssignment hacol]
    have hinc := balCount_increment bal (rowBlock cfg r) t0 bk t
    have hkc1 : keyCount bal (rowBlock cfg r) t0 = 1 := by
      have hent : (⟨rowBlock cfg r, t0, c⟩ : BalEntry) ∈ bal := entry_of_mem_lookup hmem
      have h1 : 1 ≤ keyCount bal (rowBlock cfg r) t0 := by
        simpa using keyCount_pos_of_mem hent
      have h2 := keyCount_le_one_of_nodup hnd (rowBlock cfg r) t0
      omega
    have ihh := ih ((keysOf_increment bal (rowBlock cfg r) t0).symm ▸ hnd)
    by_cases hk : bk = rowBlock cfg r ∧ t = t0
    · rw [if_pos hk] at hinc
      have hkck : keyCount bal bk t = 1 := by
        rw [hk.1, hk.2]
        exact hkc1
      have hhead : ((rowBlock cfg r == bk) && (t0 == t)) = true := by
        simp [hk.1, hk.2]
      simp only [hhead, Bool.false_eq_true, if_false, if_true]
      omega
    · rw [if_neg hk] at hinc
      have hhead : ((rowBlock cfg r == bk) && (t0 == t)) = false := by
        rcases Decidable.not_and_iff_or_not.1 hk with hb | ht
        · rw [beq_eq_false_iff_ne.2 (Ne.symm hb)]
          rfl
        · rw [beq_eq_false_iff_ne.2 (Ne.symm ht), Bool.and_false]
      simp only [hhead, Bool.false_eq_true, if_false]
      omega

/-! ### Structure of the joint key space -/

theorem mem_uniqueFirstAux {v : Value} :
    ∀ (l seen : List Value), v ∈ l → v ∈ seen ∨ v ∈ uniqueFirstAux l seen
  | [], _, h => absurd h (List.not_mem_nil v)
  | w :: rest, seen, h => by
    rw [uniqueFirstAux]
    by_cases hw : w ∈ seen
    · rw [if_pos hw]
      rcases List.mem_cons.1 h with rfl | h'
      · exact .inl hw
      · exact mem_uniqueFirstAux rest seen h'
    · rw [if_neg hw]
      rcases List.mem_cons.1 h with rfl | h'
      · exact .inr (List.mem_cons_self _ _)
      · rcases mem_uniqueFirstAux rest (w :: seen) h' with hs | ha
        · rcases List.mem_cons.1 hs with rfl | hs'
          · exact .inr (List.mem_cons_self _ _)
          · exact .inl hs'
        · exact .inr (List.mem_cons_of_mem _ ha)

theorem mem_uniqueFirst {v : Value} {l : List Value} (h : v ∈ l) :
    v ∈ uniqueFirst l :=
  (mem_uniqueFirstAux l [] h).resolve_left (List.not_mem_nil v)

theorem nodup_uniqueFirstAux :
    ∀ (l seen : List Value),
      (uniqueFirstAux l seen).Nodup ∧ ∀ v ∈ uniqueFirstAux l seen, v ∉ seen
  | [], _ => ⟨List.nodup_nil, fun v hv => absurd hv (List.not_mem_nil v)⟩
  | w :: rest, seen => by
    rw [uniqueFirstAux]
    by_cases hw : w ∈ seen
    · rw [if_pos hw]
      exact nodup_uniqueFirstAux rest seen
    · rw [if_neg hw]
      obtain ⟨hnd, hout⟩ := nodup_uniqueFirstAux rest (w :: seen)
      constructor
      · exact List.nodup_cons.2
          ⟨fun hmem => (hout w hmem) (List.mem_cons_self _ _), hnd⟩
      · intro v hv
        rcases List.mem_cons.1 hv with rfl | hv'
        · exact hw
        · exact fun hs => (hout v hv') (List.mem_cons_of_mem _ hs)

theorem nodup_uniqueFirst (l : List Value) : (uniqueFirst l).Nodup :=
  (nodup_uniqueFirstAux l []).1

theorem nodup_flatMap_cons {α : Type} [DecidableEq α] :
    ∀ (vs : List α) (P : List (List α)), vs.Nodup → P.Nodup →
      (vs.flatMap (fun v => P.map (v :: ·))).Nodup
  | [], _, _, _ => List.nodup_nil
  | v :: vs, P, hvs, hP => by
    rw [List.flatMap_cons]
    obtain ⟨hv, hvs'⟩ := List.nodup_cons.1 hvs
    refine List.Nodup.append ?_ (nodup_flatMap_cons vs P hvs' hP) ?_
    · exact hP.map (fun a b h => (List.cons.injEq v a v b ▸ h).2)
    · intro x hx1 hx2
      rcases List.mem_map.1 hx1 with ⟨p, _, rfl⟩
      rcases List.mem_flatMap.1 hx2 with ⟨u, hu, hxu⟩
      rcases List.mem_map.1 hxu with ⟨q, _, hq⟩
      have : v = u := (List.cons.injEq v p u q ▸ hq.symm).1
      exact hv (this ▸ hu)

theorem listProd_nodup :
    ∀ (ls : List (List Value)), (∀ vs ∈ ls, vs.Nodup) → (listProd ls).Nodup
  | [], _ => by simp [listProd]
  | vs :: ls, h => by
    rw [listProd]
    exact nodup_flatMap_cons vs (listProd ls)
      (h vs (List.mem_cons_self _ _))
      (listProd_nodup ls (fun l hl => h l (List.mem_cons_of_mem _ hl)))

theorem nodup_flatMap_pairs :
    ∀ (P : List (List Value)) (ids : List Int), P.Nodup → ids.Nodup →
      (P.flatMap (fun bk => ids.map (fun t => (bk, t)))).Nodup
  | [], _, _, _ => List.nodup_nil
  | bk :: P, ids, hP, hids => by
    rw [List.flatMap_cons]
    obtain ⟨hbk, hP'⟩ := List.nodup_cons.1 hP
    refine List.Nodup.append ?_ (nodup_flatMap_pairs P ids hP' hids) ?_
    · exact hids.map (fun a b h => (Prod.mk.inj h).2)
    · intro x hx1 hx2
      rcases List.mem_map.1 hx1 with ⟨t, _, rfl⟩
      rcases List.mem_flatMap.1 hx2 with ⟨bk', hbk', hx⟩
      rcases List.mem_map.1 hx with ⟨t', _, hq⟩
      exact hbk ((Prod.mk.inj hq).1 ▸ hbk')

theorem jointKeys_nodup (cfg : DistConfig) (df : List Row)
    (hids : cfg.treatment_group_ids.Nodup) : (jointKeys cfg df).Nodup := by
  rw [jointKeys]
  have hP : (listProd (cfg.balancing_features.map
      (fun c => uniqueFirst (column df c)))).Nodup :=
    listProd_nodup _ (by
      intro vs hvs
      rcases List.mem_map.1 hvs with ⟨c, _, rfl⟩
      exact nodup_uniqueFirst _)
  exact nodup_flatMap_pairs _ _ hP hids

theorem listProd_mem_map (r : Row) :
    ∀ (cols : List String) (g : String → List Value),
      (∀ c ∈ cols, r c ∈ g c) → cols.map r ∈ listProd (cols.map g)
  | [], _, _ => by simp [listProd]
  | c :: cols, g, h => by
    rw [List.map_cons, List.map_cons, listProd]
    exact List.mem_flatMap.2 ⟨r c, h c (List.mem_cons_self _ _),
      List.mem_map.2 ⟨cols.map r,
        listProd_mem_map r cols g (fun c' hc' => h c' (List.mem_cons_of_mem _ hc')), rfl⟩⟩

theorem mem_jointKeys_of_row {cfg : DistConfig} {df : List Row} {r : Row}
    (hr : r ∈ df) {t : Int} (ht : t ∈ cfg.treatment_group_ids) :
    (rowBlock cfg r, t) ∈ jointKeys cfg df := by
  rw [jointKeys]
  refine List.mem_flatMap.2 ⟨rowBlock cfg r, ?_, List.mem_map.2 ⟨t, ht, rfl⟩⟩
  exact listProd_mem_map r cfg.balancing_features _
    (fun c _ => mem_uniqueFirst (List.mem_map_of_mem (fun row => row c) hr))

theorem jointKeys_snd_mem {cfg : DistConfig} {df : List Row}
    {kt : List Value × Int} (h : kt ∈ jointKeys cfg df) :
    kt.2 ∈ cfg.treatment_group_ids := by
  rw [jointKeys] at h
  rcases List.mem_flatMap.1 h with ⟨bk, _, hkt⟩
  rcases List.mem_map.1 hkt with ⟨t, ht, rfl⟩
  exact ht

theorem jointKeys_congr {cfg : DistConfig} {df df' : List Row}
    (h : ∀ c ∈ cfg.balancing_features, column df' c = column df c) :
    jointKeys cfg df' = jointKeys cfg df := by
  rw [jointKeys, jointKeys]
  have : (cfg.balancing_features.map (fun c => uniqueFirst (column df' c)))
      = cfg.balancing_features.map (fun c => uniqueFirst (column df c)) :=
    List.map_congr_left (fun c hc => congrArg uniqueFirst (h c hc))
  rw [this]

/-! ### Facts about the balance builder -/

theorem keysOf_mk_map (K : List (List Value × Int)) (f : List Value × Int → Nat) :
    keysOf (K.map (fun kt => ⟨kt.1, kt.2, f kt⟩)) = K := by
  induction K with
  | nil => rfl
  | cons kt K ih => simpa [keysOf] using ih

theorem keysOf_gcab (cfg : DistConfig) (df : List Row) (cn : Bool) :
    keysOf (get_current_assignment_balance cfg df cn) = jointKeys cfg df := by
  rw [get_current_assignment_balance]
  exact keysOf_mk_map _ _

theorem countP_isSome_filter (cfg : DistConfig) (df : List Row) (bk : List Value)
    (t : Int) :
    (df.filter (fun r => (r cfg.treatment_assignment_col).isSome)).countP
        (matchesCell cfg bk t) = countAssigned cfg df bk t := by
  induction df with
  | nil => rfl
  | cons r df ih =>
    rw [countAssigned_cons, List.filter_cons]
    by_cases hs : (r cfg.treatment_assignment_col).isSome = true
    · rw [if_pos hs, List.countP_cons, ih]
      exact Nat.add_comm _ _
    · have hnone : r cfg.treatment_assignment_col = none :=
        Option.not_isSome_iff_eq_none.1 (by simpa using hs)
      rw [if_neg hs, ih, matchesCell_of_none hnone]
      simp

theorem gcab_false_eq (cfg : DistConfig) (df : List Row) :
    get_current_assignment_balance cfg df false =
      (jointKeys cfg df).map
        (fun kt => ⟨kt.1, kt.2, countAssigned cfg df kt.1 kt.2⟩) := by
  rw [get_current_assignment_balance]
  simp only [Bool.false_eq_true, if_false]
  exact List.map_congr_left (fun kt _ =>
    congrArg (fun n => (⟨kt.1, kt.2, n⟩ : BalEntry)) (countP_isSome_filter cfg df kt.1 kt.2))

theorem gcab_true_eq (cfg : DistConfig) (df : List Row) :
    get_current_assignment_balance cfg df true =
      (jointKeys cfg df).map
        (fun kt => ⟨kt.1, kt.2, countAssigned cfg df kt.1 kt.2⟩) := by
  rw [get_current_assignment_balance]
  rfl

theorem gcab_treatment_mem (cfg : DistConfig) (df : List Row) (cn : Bool) :
    ∀ e ∈ get_current_assignment_balance cfg df cn,
      e.treatment ∈ cfg.treatment_group_ids := by
  intro e he
  rw [get_current_assignment_balance] at he
  rcases List.mem_map.1 he with ⟨kt, hkt, rfl⟩
  exact jointKeys_snd_mem hkt

theorem balCount_gcab {cfg : DistConfig} {df : List Row}
    (hids : cfg.treatment_group_ids.Nodup) {bk : List Value} {t : Int}
    (hkt : (bk, t) ∈ jointKeys cfg df) :
    balCount (get_current_assignment_balance cfg df false) bk t =
      countAssigned cfg df bk t := by
  have hent : (⟨bk, t, countAssigned cfg df bk t⟩ : BalEntry)
      ∈ get_current_assignment_balance cfg df false := by
    rw [gcab_false_eq]
    exact List.mem_map.2 ⟨(bk, t), hkt, rfl⟩
  have hnd : (keysOf (get_current_assignment_balance cfg df false)).Nodup := by
    rw [keysOf_gcab]
    exact jointKeys_nodup cfg df hids
  simpa using entry_count_eq_balCount hnd hent

/-! ### The trial loop -/

theorem trialsLoop_no_improve (cfg : DistConfig) (sm : StatModel)
    (oracles : Nat → Nat → Nat) (df : List Row) (bal : BalanceTable) :
    ∀ (L : List Nat) (sel : Option (List Row)) (best : ℚ),
      (∀ i ∈ L, ∃ pr, generate_candidate_assignments cfg (oracles i) df bal = .ok pr ∧
        calculate_min_p_value_distribution_independence cfg sm pr.1 ≤ best) →
      trialsLoop cfg sm oracles df bal L sel best =
        trialsLoop cfg sm oracles df bal [] sel best
  | [], _, _, _ => rfl
  | i :: rest, sel, best, h => by
    obtain ⟨pr, hok, hle⟩ := h i (List.mem_cons_self i rest)
    rw [trialsLoop, hok]
    simp only []
    rw [if_neg (not_lt.2 hle)]
    exact trialsLoop_no_improve cfg sm oracles df bal rest sel best
      (fun j hj => h j (List.mem_cons_of_mem i hj))

theorem trialsLoop_sel_from (cfg : DistConfig) (sm : StatModel)
    (oracles : Nat → Nat → Nat) (df : List Row) (bal : BalanceTable) :
    ∀ (L : List Nat) (sel : Option (List Row)) (best : ℚ)
      (out : List Row × ℚ),
      trialsLoop cfg sm oracles df bal L sel best = .ok out →
      sel = some out.1 ∨
        ∃ i ∈ L, ∃ pr, generate_candidate_assignments cfg (oracles i) df bal = .ok pr ∧
          out.1 = pr.1
  | [], none, _, _, h => by cases h
  | [], some s, best, out, h => by
    simp only [trialsLoop, Except.ok.injEq] at h
    exact .inl (by rw [← h])
  | i :: rest, sel, best, out, h => by
    rw [trialsLoop] at h
    cases hg : generate_candidate_assignments cfg (oracles i) df bal with
    | error e => rw [hg] at h; cases h
    | ok pr =>
      rw [hg] at h
      simp only [] at h
      by_cases hlt : best <
          calculate_min_p_value_distribution_independence cfg sm pr.1
      · rw [if_pos hlt] at h
        rcases trialsLoop_sel_from cfg sm oracles df bal rest _ _ out h with hsel | hrest
        · exact .inr ⟨i, List.mem_cons_self i rest, pr, hg, by
            injection hsel with hsel
            exact hsel.symm⟩
        · rcases hrest with ⟨j, hj, pr', hg', hout⟩
          exact .inr ⟨j, List.mem_cons_of_mem i hj, pr', hg', hout⟩
      · rw [if_neg hlt] at h
        rcases trialsLoop_sel_from cfg sm oracles df bal rest _ _ out h with hsel | hrest
        · exact .inl hsel
        · rcases hrest with ⟨j, hj, pr', hg', hout⟩
          exact .inr ⟨j, List.mem_cons_of_mem i hj, pr', hg', hout⟩

theorem genRows_all_kept (cfg : DistConfig) (oracle : Nat → Nat) :
    ∀ (df : List Row) (k : Nat) (bal : BalanceTable),
      (∀ r ∈ df, (r cfg.treatment_assignment_col).isSome = true) →
      genRows cfg oracle df k bal = .ok (df, bal)
  | [], _, _, _ => rfl
  | r :: rest, k, bal, h => by
    rw [genRows, if_pos (h r (List.mem_cons_self r rest)),
      genRows_all_kept cfg oracle rest k bal
        (fun r' hr' => h r' (List.mem_cons_of_mem r hr'))]

theorem trialsLoop_spec (cfg : DistConfig) (sm : StatModel) (oracles : Nat → Nat → Nat)
    (df : List Row) (bal : BalanceTable) (cand : Nat → List Row × BalanceTable) :
    ∀ (n a : Nat) (sel : Option (List Row)) (best : ℚ),
      (∀ i, a ≤ i → i < a + n →
        generate_candidate_assignments cfg (oracles i) df bal = .ok (cand i)) →
      (∃ i, a ≤ i ∧ i < a + n ∧
        best < calculate_min_p_value_distribution_independence cfg sm (cand i).1) →
      ∃ j, a ≤ j ∧ j < a + n ∧
        trialsLoop cfg sm oracles df bal (List.range' a n) sel best =
          .ok ((cand j).1,
            calculate_min_p_value_distribution_independence cfg sm (cand j).1) ∧
        (∀ i, a ≤ i → i < a + n →
          calculate_min_p_value_distribution_independence cfg sm (cand i).1 ≤
            calculate_min_p_value_distribution_independence cfg sm (cand j).1) ∧
        best < calculate_min_p_value_distribution_independence cfg sm (cand j).1 ∧
        (∀ i, a ≤ i → i < j →
          calculate_min_p_value_distribution_independence cfg sm (cand i).1 <
            calculate_min_p_value_distribution_independence cfg sm (cand j).1)
  | 0, a, sel, best, _, hex => by
    rcases hex with ⟨i, h1, h2, _⟩
    omega
  | n + 1, a, sel, best, hg, hex => by
    have hga : generate_candidate_assignments cfg (oracles a) df bal = .ok (cand a) :=
      hg a le_rfl (by omega)
    rw [show List.range' a (n + 1) = a :: List.range' (a + 1) n from rfl,
      trialsLoop, hga]
    simp only []
    by_cases hlt : best < calculate_min_p_value_distribution_independence cfg sm (cand a).1
    · rw [if_pos hlt]
      by_cases hex2 : ∃ i, a + 1 ≤ i ∧ i < (a + 1) + n ∧
          calculate_min_p_value_distribution_independence cfg sm (cand a).1 <
            calculate_min_p_value_distribution_independence cfg sm (cand i).1
      · obtain ⟨j, hj1, hj2, hres, hmax, hbest, hfirst⟩ :=
          trialsLoop_spec cfg sm oracles df bal cand n (a + 1) (some (cand a).1)
            (calculate_min_p_value_distribution_independence cfg sm (cand a).1)
            (fun i h1 h2 => hg i (by omega) (by omega)) hex2
        refine ⟨j, by omega, by omega, hres, ?_, lt_trans hlt hbest, ?_⟩
        · intro i hi1 hi2
          by_cases hia : i = a
          · subst hia
            exact le_of_lt hbest
          · exact hmax i (by omega) (by omega)
        · intro i hi1 hi2
          by_cases hia : i = a
          · subst hia
            exact hbest
          · exact hfirst i (by omega) hi2
      · push_neg at hex2
        have hnoimp : trialsLoop cfg sm oracles df bal (List.range' (a + 1) n)
            (some (cand a).1)
            (calculate_min_p_value_distribution_independence cfg sm (cand a).1) =
            .ok ((cand a).1,
              calculate_min_p_value_distribution_independence cfg sm (cand a).1) := by
          rw [trialsLoop_no_improve cfg sm oracles df bal _ _ _ (fun i hi => by
            have hmem := List.mem_range'_1.1 hi
            exact ⟨cand i, hg i (by omega) (by omega),
              hex2 i (by omega) (by omega)⟩)]
          rfl
        refine ⟨a, le_rfl, by omega, hnoimp, ?_, hlt, ?_⟩
        · intro i hi1 hi2
          by_cases hia : i = a
          · subst hia
            exact le_rfl
          · exact hex2 i (by omega) (by omega)
        · intro i hi1 hi2
          exact absurd hi2 (by omega)
    · rw [if_neg hlt]
      rcases hex with ⟨i0, hi01, hi02, hi03⟩
      have hi0a : i0 ≠ a := by
        rintro rfl
        exact hlt hi03
      obtain ⟨j, hj1, hj2, hres, hmax, hbest, hfirst⟩ :=
        trialsLoop_spec cfg sm oracles df bal cand n (a + 1) sel best
          (fun i h1 h2 => hg i (by omega) (by omega))
          ⟨i0, by omega, by omega, hi03⟩
      refine ⟨j, by omega, by omega, hres, ?_, hbest, ?_⟩
      · intro i hi1 hi2
        by_cases hia : i = a
        · subst hia
          exact le_trans (le_of_not_lt hlt) (le_of_lt hbest)
        · exact hmax i (by omega) (by omega)
      · intro i hi1 hi2
        by_cases hia : i = a
        · subst hia
          exact lt_of_le_of_lt (le_of_not_lt hlt) hbest
        · exact hfirst i (by omega) hi2

/-- A structure equality helper. -/
theorem balentry_eq {e f : BalEntry} (h1 : e.block = f.block)
    (h2 : e.treatment = f.treatment) (h3 : e.count = f.count) : e = f := by
  cases e
  cases f
  simp_all

set_option maxHeartbeats 1000000 in
/-- One scenario trial evaluates to `genOut10`. -/
theorem genOut10_spec :
    generate_candidate_assignments cfg2 oracle0 df10
      (get_current_assignment_balance cfg2 df10 false) = .ok genOut10 := rfl

set_option maxHeartbeats 1000000 in
/-- On the fully pre-assigned two-subject table with an empty treatment-id
list, the whole call returns the unchanged table with score 1. -/
theorem agE_spec : assign_group cfgE sm1 oracles0 dfE = .ok (dfE, 1) := rfl

/-! ### The claims -/

/-- C1: for every subject whose assignment is null, the row loop of
`generate_candidate_assignments` gives it a treatment id whose count in the
current balance slice of its block is minimal (`AssignSteps`), increments
that cell before the next row is processed, and leaves every output row
with a non-null assignment; the seed-indexed chooser enumerates exactly the
tied ids over a uniform seed residue (uniform tie-break), and every
treatment id of a balance table built by the code is a configured id. -/
theorem c1_generate_argmin_assignments (cfg : DistConfig) (oracle : Nat → Nat)
    (df : List Row) (bal : BalanceTable)
    (h : ∀ r ∈ df, r cfg.treatment_assignment_col = none →
      lookupBlock bal (rowBlock cfg r) ≠ []) :
    (∃ df' bal', generate_candidate_assignments cfg oracle df bal = .ok (df', bal') ∧
      AssignSteps cfg df bal df' bal' ∧
      ∀ r' ∈ df', (r' cfg.treatment_assignment_col).isSome = true) ∧
    (∀ cnts : List (Int × Nat),
      (List.range (minTies cnts).length).map (chooseTie cnts) =
        (minTies cnts).map Prod.fst) ∧
    (∀ (df0 : List Row) (cn : Bool), ∀ e ∈ get_current_assignment_balance cfg df0 cn,
      e.treatment ∈ cfg.treatment_group_ids) := by
  refine ⟨?_, chooseTie_uniform, fun df0 cn => gcab_treatment_mem cfg df0 cn⟩
  obtain ⟨⟨df', bal'⟩, hout⟩ := genRows_progress cfg oracle df 0 bal h
  exact ⟨df', bal', hout, genRows_ok_steps hout,
    steps_all_some (genRows_ok_steps hout)⟩

/-- Witness for C1 on the 10-subject fixture. -/
theorem c1_witness :
    (∀ r ∈ df10, r cfg10.treatment_assignment_col = none →
      lookupBlock (get_current_assignment_balance cfg10 df10 false)
        (rowBlock cfg10 r) ≠ []) ∧
    ((∃ df' bal', generate_candidate_assignments cfg10 oracle0 df10
        (get_current_assignment_balance cfg10 df10 false) = .ok (df', bal') ∧
      AssignSteps cfg10 df10 (get_current_assignment_balance cfg10 df10 false) df' bal' ∧
      ∀ r' ∈ df', (r' cfg10.treatment_assignment_col).isSome = true) ∧
    (∀ cnts : List (Int × Nat),
      (List.range (minTies cnts).length).map (chooseTie cnts) =
        (minTies cnts).map Prod.fst) ∧
    (∀ (df0 : List Row) (cn : Bool),
      ∀ e ∈ get_current_assignment_balance cfg10 df0 cn,
        e.treatment ∈ cfg10.treatment_group_ids)) :=
  ⟨by decide, c1_generate_argmin_assignments cfg10 oracle0 df10
    (get_current_assignment_balance cfg10 df10 false) (by decide)⟩

/-- C5: the t-test guard of `distributors.py:178` compares the unparenthesised
bound method `.sum` of the second group against 1, so only the first group's
size is actually checked: on `df5` the group of treatment 0 has no
non-missing `num_app_accessed` value at all, yet exactly one t-test is run
(the claim says it must be skipped). -/
theorem c5_ttest_runs_despite_small_group :
    notnullCount (column (slice cfg5 df5 0) "num_app_accessed") = 0 ∧
    1 < notnullCount (column (slice cfg5 df5 (-1)) "num_app_accessed") ∧
    (ttestPs cfg5 sm1 df5).length = 1 := by decide

/-- Counterexample for C6: on the 10-subject fixture the code reports
count 1 at `(market 3, treatment 0)` (subject 7), not the 0 the claim
states. -/
theorem c6_counterexample :
    ¬ balCount (get_current_assignment_balance cfg10 df10 false) [some 3] 0 = 0 := by
  decide

/-- C6 (amended): for subjects without missing balancing values, the key
space of the balance table is the full cross product of observed balancing
values and configured treatment ids (every observed block appears with
every id); each cell counts exactly the rows of that block carrying that
assignment value, so null assignments are never counted and unobserved
combinations get 0; and on the 10-subject fixture the table is exactly
`expectedBal10`, whose `([some 3], 0)` cell is 1. -/
theorem c6_balance_table (cfg : DistConfig) (df : List Row) (r : Row) (t : Int)
    (hr : r ∈ df) (ht : t ∈ cfg.treatment_group_ids)
    (hnn : ∀ r0 ∈ df, (rowBlock cfg r0).all Option.isSome = true) :
    ((rowBlock cfg r, t) ∈ keysOf (get_current_assignment_balance cfg df false)) ∧
    (∀ e ∈ get_current_assignment_balance cfg df false,
      e.count = countAssigned cfg df e.block e.treatment) ∧
    get_current_assignment_balance cfg10 df10 false = expectedBal10 := by
  refine ⟨?_, ?_, by decide⟩
  · rw [keysOf_gcab]
    exact mem_jointKeys_of_row hr ht
  · intro e he
    rw [gcab_false_eq] at he
    rcases List.mem_map.1 he with ⟨kt, _, rfl⟩
    rfl

/-- Witness for C6 at subject 1, treatment -1. -/
theorem c6_witness :
    (mkRow 1 1 1 9 (some (-1)) ∈ df10) ∧ ((-1 : Int) ∈ cfg10.treatment_group_ids) ∧
    (∀ r0 ∈ df10, (rowBlock cfg10 r0).all Option.isSome = true) ∧
    (((rowBlock cfg10 (mkRow 1 1 1 9 (some (-1))), (-1 : Int)) ∈
        keysOf (get_current_assignment_balance cfg10 df10 false)) ∧
    (∀ e ∈ get_current_assignment_balance cfg10 df10 false,
      e.count = countAssigned cfg10 df10 e.block e.treatment) ∧
    get_current_assignment_balance cfg10 df10 false = expectedBal10) :=
  ⟨by simp [df10], by decide, by decide,
    c6_balance_table cfg10 df10 (mkRow 1 1 1 9 (some (-1))) (-1)
      (by simp [df10]) (by decide) (by decide)⟩

/-- C7: if the balance table built by the code has within-block spread at
most 1, then after one `generate_candidate_assignments` trial the updated
table still has within-block spread at most 1. -/
theorem c7_spread_invariant (cfg : DistConfig) (oracle : Nat → Nat)
    (df df0 : List Row) (cn : Bool) (df' : List Row) (bal' : BalanceTable)
    (hids : cfg.treatment_group_ids.Nodup)
    (hsp : spreadWithin (get_current_assignment_balance cfg df0 cn))
    (h : generate_candidate_assignments cfg oracle df
        (get_current_assignment_balance cfg df0 cn) = .ok (df', bal')) :
    spreadWithin bal' :=
  steps_spread (genRows_ok_steps h)
    (by
      rw [keysOf_gcab]
      exact jointKeys_nodup cfg df0 hids) hsp

/-- Witness for C7 on the 10-subject fixture. -/
theorem c7_witness :
    ([-1, 0] : List Int).Nodup ∧
    spreadWithin (get_current_assignment_balance cfg2 df10 false) ∧
    generate_candidate_assignments cfg2 oracle0 df10
      (get_current_assignment_balance cfg2 df10 false) =
        .ok (genOut10.1, genOut10.2) ∧
    spreadWithin genOut10.2 :=
  ⟨by decide, by decide, genOut10_spec,
    c7_spread_invariant cfg2 oracle0 df10 df10 false genOut10.1 genOut10.2
      (by decide) (by decide) genOut10_spec⟩

/-- C2: assuming every test p-value is a p-value (at most 1), the scorer
returns the minimum over the p-values of the tests actually run — the
chi-squared list has one entry per balancing and discrete feature, the
t-test list one entry per treatment pair and continuous feature passing the
guard — and returns exactly 1 when no test was run or none scored below 1. -/
theorem c2_min_p_aggregation (cfg : DistConfig) (sm : StatModel) (df : List Row)
    (hub : ∀ p ∈ chiTestPs cfg sm df ++ ttestPs cfg sm df, p ≤ 1) :
    (chiTestPs cfg sm df).length =
      cfg.balancing_features.length + cfg.discrete_features.length ∧
    (chiTestPs cfg sm df ++ ttestPs cfg sm df = [] →
      calculate_min_p_value_distribution_independence cfg sm df = 1) ∧
    (chiTestPs cfg sm df ++ ttestPs cfg sm df ≠ [] →
      calculate_min_p_value_distribution_independence cfg sm df ∈
          chiTestPs cfg sm df ++ ttestPs cfg sm df ∧
        ∀ p ∈ chiTestPs cfg sm df ++ ttestPs cfg sm df,
          calculate_min_p_value_distribution_independence cfg sm df ≤ p) ∧
    ((∀ p ∈ chiTestPs cfg sm df ++ ttestPs cfg sm df, 1 ≤ p) →
      calculate_min_p_value_distribution_independence cfg sm df = 1) := by
  have hcalc : calculate_min_p_value_distribution_independence cfg sm df =
      (chiTestPs cfg sm df ++ ttestPs cfg sm df).foldl min 1 := rfl
  refine ⟨by simp [chiTestPs], ?_, ?_, ?_⟩
  · intro h
    rw [hcalc, h]
    rfl
  · intro hne
    have hle : ∀ p ∈ chiTestPs cfg sm df ++ ttestPs cfg sm df,
        (chiTestPs cfg sm df ++ ttestPs cfg sm df).foldl min 1 ≤ p :=
      fun p hp => foldl_min_le_mem hp 1
    constructor
    · rcases foldl_min_eq_init_or_mem (chiTestPs cfg sm df ++ ttestPs cfg sm df) 1
          with h1 | hmem
      · rcases List.exists_mem_of_ne_nil _ hne with ⟨p0, hp0⟩
        have hp01 : p0 = 1 := le_antisymm (hub p0 hp0) (h1 ▸ hle p0 hp0)
        rw [hcalc, h1, ← hp01]
        exact hp0
      · rw [hcalc]
        exact hmem
    · intro p hp
      rw [hcalc]
      exact hle p hp
  · intro hge
    rw [hcalc]
    exact le_antisymm (foldl_min_le_init _ 1) (le_foldl_min le_rfl hge)

/-- Witness for C2 on the fully-assigned scenario candidate. -/
theorem c2_witness :
    (∀ p ∈ chiTestPs cfg10 sm1 genOut10.1 ++ ttestPs cfg10 sm1 genOut10.1, p ≤ 1) ∧
    ((chiTestPs cfg10 sm1 genOut10.1).length =
      cfg10.balancing_features.length + cfg10.discrete_features.length ∧
    (chiTestPs cfg10 sm1 genOut10.1 ++ ttestPs cfg10 sm1 genOut10.1 = [] →
      calculate_min_p_value_distribution_independence cfg10 sm1 genOut10.1 = 1) ∧
    (chiTestPs cfg10 sm1 genOut10.1 ++ ttestPs cfg10 sm1 genOut10.1 ≠ [] →
      calculate_min_p_value_distribution_independence cfg10 sm1 genOut10.1 ∈
          chiTestPs cfg10 sm1 genOut10.1 ++ ttestPs cfg10 sm1 genOut10.1 ∧
        ∀ p ∈ chiTestPs cfg10 sm1 genOut10.1 ++ ttestPs cfg10 sm1 genOut10.1,
          calculate_min_p_value_distribution_independence cfg10 sm1 genOut10.1 ≤ p) ∧
    ((∀ p ∈ chiTestPs cfg10 sm1 genOut10.1 ++ ttestPs cfg10 sm1 genOut10.1, 1 ≤ p) →
      calculate_min_p_value_distribution_independence cfg10 sm1 genOut10.1 = 1)) :=
  ⟨by decide, c2_min_p_aggregation cfg10 sm1 genOut10.1 (by decide)⟩

/-- C3: when every trial generates successfully and some trial scores above
the initial 0, `assign_group` returns the candidate of the earliest trial
achieving the maximum score: every trial's score is at most the winner's,
and every strictly earlier trial scored strictly less. -/
theorem c3_first_best_trial (cfg : DistConfig) (sm : StatModel)
    (oracles : Nat → Nat → Nat) (df : List Row)
    (cand : Nat → List Row × BalanceTable)
    (hg : ∀ i, i < cfg.random_attempts →
      generate_candidate_assignments cfg (oracles i) df
        (get_current_assignment_balance cfg df false) = .ok (cand i))
    (hex : ∃ i, i < cfg.random_attempts ∧
      0 < calculate_min_p_value_distribution_independence cfg sm (cand i).1) :
    ∃ j, j < cfg.random_attempts ∧
      assign_group cfg sm oracles df =
        .ok ((cand j).1,
          calculate_min_p_value_distribution_independence cfg sm (cand j).1) ∧
      (∀ i, i < cfg.random_attempts →
        calculate_min_p_value_distribution_independence cfg sm (cand i).1 ≤
          calculate_min_p_value_distribution_independence cfg sm (cand j).1) ∧
      (∀ i, i < j →
        calculate_min_p_value_distribution_independence cfg sm (cand i).1 <
          calculate_min_p_value_distribution_independence cfg sm (cand j).1) := by
  obtain ⟨j, hj1, hj2, hres, hmax, hbest, hfirst⟩ :=
    trialsLoop_spec cfg sm oracles df
      (get_current_assignment_balance cfg df false) cand cfg.random_attempts 0 none 0
      (fun i h1 h2 => hg i (by omega))
      (by
        rcases hex with ⟨i, h1, h2⟩
        exact ⟨i, by omega, by omega, h2⟩)
  refine ⟨j, by omega, ?_, fun i hi => hmax i (by omega) (by omega),
    fun i hi => hfirst i (by omega) hi⟩
  rw [assign_group, List.range_eq_range' cfg.random_attempts]
  exact hres

/-- Witness for C3 on the scenario with two identical trials: the first
trial wins the tie. -/
theorem c3_witness :
    (∀ i, i < cfg2.random_attempts →
      generate_candidate_assignments cfg2 (oracles0 i) df10
        (get_current_assignment_balance cfg2 df10 false) = .ok (cand10 i)) ∧
    (∃ i, i < cfg2.random_attempts ∧
      0 < calculate_min_p_value_distribution_independence cfg2 sm1 (cand10 i).1) ∧
    (∃ j, j < cfg2.random_attempts ∧
      assign_group cfg2 sm1 oracles0 df10 =
        .ok ((cand10 j).1,
          calculate_min_p_value_distribution_independence cfg2 sm1 (cand10 j).1) ∧
      (∀ i, i < cfg2.random_attempts →
        calculate_min_p_value_distribution_independence cfg2 sm1 (cand10 i).1 ≤
          calculate_min_p_value_distribution_independence cfg2 sm1 (cand10 j).1) ∧
      (∀ i, i < j →
        calculate_min_p_value_distribution_independence cfg2 sm1 (cand10 i).1 <
          calculate_min_p_value_distribution_independence cfg2 sm1 (cand10 j).1)) :=
  ⟨fun _ _ => genOut10_spec, ⟨0, by decide, by decide⟩,
    c3_first_best_trial cfg2 sm1 oracles0 df10 cand10 (fun _ _ => genOut10_spec)
      ⟨0, by decide, by decide⟩⟩

/-- C10: when every trial generates successfully but no trial's score
strictly exceeds the initial best of 0 — in particular when the configured
trial count is 0 — `assign_group` fails with the unbound-local error of
`return selected_assignments`. -/
theorem c10_unbound_local (cfg : DistConfig) (sm : StatModel)
    (oracles : Nat → Nat → Nat) (df : List Row)
    (cand : Nat → List Row × BalanceTable)
    (hg : ∀ i, i < cfg.random_attempts →
      generate_candidate_assignments cfg (oracles i) df
        (get_current_assignment_balance cfg df false) = .ok (cand i))
    (hall : ∀ i, i < cfg.random_attempts →
      calculate_min_p_value_distribution_independence cfg sm (cand i).1 ≤ 0) :
    assign_group cfg sm oracles df = .error .unboundLocal := by
  rw [assign_group]
  rw [trialsLoop_no_improve cfg sm oracles df
    (get_current_assignment_balance cfg df false)
    (List.range cfg.random_attempts) none 0
    (fun i hi => ⟨cand i, hg i (List.mem_range.1 hi), hall i (List.mem_range.1 hi)⟩)]
  rfl

/-- Witness for C10 with a trial count of zero. -/
theorem c10_witness :
    (∀ i, i < cfg0.random_attempts →
      generate_candidate_assignments cfg0 (oracles0 i) df10
        (get_current_assignment_balance cfg0 df10 false) = .ok (([], []) : List Row × BalanceTable)) ∧
    (∀ i, i < cfg0.random_attempts →
      calculate_min_p_value_distribution_independence cfg0 sm1
        ((([], []) : List Row × BalanceTable)).1 ≤ 0) ∧
    assign_group cfg0 sm1 oracles0 df10 = .error .unboundLocal :=
  ⟨fun i hi => absurd hi (Nat.not_lt_zero i),
    fun i hi => absurd hi (Nat.not_lt_zero i),
    c10_unbound_local cfg0 sm1 oracles0 df10 (fun _ => ([], []))
      (fun i hi => absurd hi (Nat.not_lt_zero i))
      (fun i hi => absurd hi (Nat.not_lt_zero i))⟩

/-- Counterexample for C4: with an empty treatment-group id list the claim
demands a configuration error before any trial; the code instead runs its
trial (here on a fully pre-assigned table) and returns normally. -/
theorem c4_counterexample :
    cfgE.treatment_group_ids = [] ∧
    isOkResult (assign_group cfgE sm1 oracles0 dfE) = true :=
  ⟨rfl, by decide⟩

/-- C4 (amended): `assign_group` performs no configuration validation and
raises no configuration error.  In particular an empty treatment-group id
list does not make the call fail: whenever every subject is pre-assigned,
the scorer reports a positive score, and at least one trial is configured,
the call succeeds and returns the unchanged table (note the empty-id
hypothesis plays no role in the proof — nothing inspects it). -/
theorem c4_no_validation (cfg : DistConfig) (sm : StatModel)
    (oracles : Nat → Nat → Nat) (df : List Row)
    (hids : cfg.treatment_group_ids = [])
    (hall : ∀ r ∈ df, (r cfg.treatment_assignment_col).isSome = true)
    (hp : 0 < calculate_min_p_value_distribution_independence cfg sm df)
    (hn : 1 ≤ cfg.random_attempts) :
    assign_group cfg sm oracles df =
      .ok (df, calculate_min_p_value_distribution_independence cfg sm df) := by
  have hgen : ∀ o : Nat → Nat, generate_candidate_assignments cfg o df
      (get_current_assignment_balance cfg df false) =
      .ok (df, get_current_assignment_balance cfg df false) :=
    fun o => genRows_all_kept cfg o df 0 _ hall
  obtain ⟨m, hm⟩ : ∃ m, cfg.random_attempts = m + 1 :=
    ⟨cfg.random_attempts - 1, by omega⟩
  rw [assign_group, hm, List.range_eq_range' (m + 1),
    show List.range' 0 (m + 1) = 0 :: List.range' 1 m from rfl, trialsLoop,
    hgen (oracles 0)]
  simp only []
  rw [if_pos hp]
  rw [trialsLoop_no_improve cfg sm oracles df _ (List.range' 1 m) (some df) _
    (fun i _ => ⟨(df, get_current_assignment_balance cfg df false),
      hgen (oracles i), le_refl _⟩)]
  rfl

/-- Witness for the amended C4 on the empty-id configuration. -/
theorem c4_witness :
    cfgE.treatment_group_ids = [] ∧
    (∀ r ∈ dfE, (r cfgE.treatment_assignment_col).isSome = true) ∧
    0 < calculate_min_p_value_distribution_independence cfgE sm1 dfE ∧
    1 ≤ cfgE.random_attempts ∧
    assign_group cfgE sm1 oracles0 dfE =
      .ok (dfE, calculate_min_p_value_distribution_independence cfgE sm1 dfE) :=
  ⟨rfl, by decide, by decide, by decide,
    c4_no_validation cfgE sm1 oracles0 dfE rfl (by decide) (by decide) (by decide)⟩

/-- C8: the embedding is pure, so the caller's table and balance are values
that cannot be mutated; beyond that, both `generate_candidate_assignments`
and `assign_group` return a table of the same length in which every column
other than the assignment column is unchanged, and every subject that
entered with a non-null assignment keeps that exact value. -/
theorem c8_frame_no_mutation
    (cfg : DistConfig) (oracle : Nat → Nat) (df : List Row) (bal : BalanceTable)
    (df' : List Row) (bal' : BalanceTable)
    (h1 : generate_candidate_assignments cfg oracle df bal = .ok (df', bal'))
    (cfga : DistConfig) (sm : StatModel) (oracles : Nat → Nat → Nat)
    (dfa : List Row) (sel : List Row) (q : ℚ)
    (h2 : assign_group cfga sm oracles dfa = .ok (sel, q)) :
    (df'.length = df.length ∧
      (∀ c, c ≠ cfg.treatment_assignment_col → column df' c = column df c) ∧
      (∀ n, (df.getD n dRow) cfg.treatment_assignment_col ≠ none →
        (df'.getD n dRow) cfg.treatment_assignment_col =
          (df.getD n dRow) cfg.treatment_assignment_col)) ∧
    (sel.length = dfa.length ∧
      (∀ c, c ≠ cfga.treatment_assignment_col → column sel c = column dfa c) ∧
      (∀ n, (dfa.getD n dRow) cfga.treatment_assignment_col ≠ none →
        (sel.getD n dRow) cfga.treatment_assignment_col =
          (dfa.getD n dRow) cfga.treatment_assignment_col)) := by
  have hs1 := genRows_ok_steps h1
  refine ⟨⟨steps_length hs1, fun c hc => steps_column hs1 hc,
    fun n hn => steps_assignment_kept hs1 n hn⟩, ?_⟩
  rw [assign_group] at h2
  rcases trialsLoop_sel_from cfga sm oracles dfa _ (List.range cfga.random_attempts)
      none 0 (sel, q) h2 with hnone | ⟨i, _, pr, hg, hsel⟩
  · cases hnone
  · obtain ⟨prf, prb⟩ := pr
    have hs2 := genRows_ok_steps hg
    have hsel' : sel = prf := hsel
    rw [hsel']
    exact ⟨steps_length hs2, fun c hc => steps_column hs2 hc,
      fun n hn => steps_assignment_kept hs2 n hn⟩

/-- Witness for C8: one scenario trial plus one full `assign_group` run. -/
theorem c8_witness :
    (generate_candidate_assignments cfg2 oracle0 df10
      (get_current_assignment_balance cfg2 df10 false) =
        .ok (genOut10.1, genOut10.2)) ∧
    (assign_group cfgE sm1 oracles0 dfE = .ok (dfE, 1)) ∧
    ((genOut10.1.length = df10.length ∧
      (∀ c, c ≠ cfg2.treatment_assignment_col →
        column genOut10.1 c = column df10 c) ∧
      (∀ n, (df10.getD n dRow) cfg2.treatment_assignment_col ≠ none →
        (genOut10.1.getD n dRow) cfg2.treatment_assignment_col =
          (df10.getD n dRow) cfg2.treatment_assignment_col)) ∧
    (dfE.length = dfE.length ∧
      (∀ c, c ≠ cfgE.treatment_assignment_col → column dfE c = column dfE c) ∧
      (∀ n, (dfE.getD n dRow) cfgE.treatment_assignment_col ≠ none →
        (dfE.getD n dRow) cfgE.treatment_assignment_col =
          (dfE.getD n dRow) cfgE.treatment_assignment_col))) :=
  ⟨genOut10_spec, agE_spec,
    c8_frame_no_mutation cfg2 oracle0 df10
      (get_current_assignment_balance cfg2 df10 false) genOut10.1 genOut10.2
      genOut10_spec cfgE sm1 oracles0 dfE dfE 1 agE_spec⟩

/-- C9: for subjects without missing balancing values, re-running the
balance builder with `count_nulls = true` on the fully-assigned candidate
reproduces exactly the updated balance returned by
`generate_candidate_assignments` — every subject counted once. -/
theorem c9_roundtrip (cfg : DistConfig) (oracle : Nat → Nat) (df df' : List Row)
    (bal' : BalanceTable)
    (hids : cfg.treatment_group_ids.Nodup)
    (hacol : cfg.treatment_assignment_col ∉ cfg.balancing_features)
    (hnn : ∀ r0 ∈ df, (rowBlock cfg r0).all Option.isSome = true)
    (h : generate_candidate_assignments cfg oracle df
        (get_current_assignment_balance cfg df false) = .ok (df', bal')) :
    get_current_assignment_balance cfg df' true = bal' := by
  have hsteps := genRows_ok_steps h
  have hnd0 : (keysOf (get_current_assignment_balance cfg df false)).Nodup := by
    rw [keysOf_gcab]
    exact jointKeys_nodup cfg df hids
  have hK : jointKeys cfg df' = jointKeys cfg df :=
    jointKeys_congr (fun c hc =>
      steps_column hsteps (fun hcc => hacol (hcc ▸ hc)))
  have hkeys' : keysOf bal' = jointKeys cfg df :=
    (steps_keys hsteps).trans (keysOf_gcab cfg df false)
  have hnd' : (keysOf bal').Nodup := by
    rw [hkeys']
    exact jointKeys_nodup cfg df hids
  rw [gcab_true_eq, hK]
  have hlen : ((jointKeys cfg df).map
      (fun kt => (⟨kt.1, kt.2, countAssigned cfg df' kt.1 kt.2⟩ : BalEntry))).length
      = bal'.length := by
    have h1 : (keysOf bal').length = (jointKeys cfg df).length :=
      congrArg List.length hkeys'
    simp only [keysOf, List.length_map] at h1 ⊢
    omega
  refine List.ext_getElem hlen ?_
  intro i hi1 hi2
  have hiK : i < (jointKeys cfg df).length := by simpa using hi1
  have hik0 : i < (keysOf bal').length := by
    rw [hkeys']
    exact hiK
  have hkeyi : (keysOf bal')[i] = (jointKeys cfg df)[i] :=
    List.getElem_of_eq hkeys' _
  simp only [keysOf, List.getElem_map] at hkeyi
  have hblock : bal'[i].block = (jointKeys cfg df)[i].1 :=
    congrArg Prod.fst hkeyi
  have htreat : bal'[i].treatment = (jointKeys cfg df)[i].2 :=
    congrArg Prod.snd hkeyi
  have hkt : (bal'[i].block, bal'[i].treatment) ∈ jointKeys cfg df := by
    rw [hkeyi]
    exact List.getElem_mem hiK
  have hbc : balCount bal' bal'[i].block bal'[i].treatment = bal'[i].count :=
    entry_count_eq_balCount hnd' (List.getElem_mem hi2)
  have hinit := balCount_gcab hids hkt
  have hsb := steps_balCount hsteps hacol hnd0 bal'[i].block bal'[i].treatment
  have hcount : bal'[i].count =
      countAssigned cfg df' bal'[i].block bal'[i].treatment := by
    omega
  rw [List.getElem_map]
  exact balentry_eq (by rw [hblock]) (by rw [htreat])
    (by
      show countAssigned cfg df' (jointKeys cfg df)[i].1
          (jointKeys cfg df)[i].2 = bal'[i].count
      rw [← hblock, ← htreat, hcount])

/-- Witness for C9 on the 10-subject fixture. -/
theorem c9_witness :
    ([-1, 0] : List Int).Nodup ∧
    cfg2.treatment_assignment_col ∉ cfg2.balancing_features ∧
    (∀ r0 ∈ df10, (rowBlock cfg2 r0).all Option.isSome = true) ∧
    generate_candidate_assignments cfg2 oracle0 df10
      (get_current_assignment_balance cfg2 df10 false) =
        .ok (genOut10.1, genOut10.2) ∧
    get_current_assignment_balance cfg2 genOut10.1 true = genOut10.2 :=
  ⟨by decide, by decide, by decide, genOut10_spec,
    c9_roundtrip cfg2 oracle0 df10 genOut10.1 genOut10.2 (by decide) (by decide)
      (by decide) genOut10_spec⟩

end PetriDish
